import Mathlib

/-!
Verification development for the `scry` OSINT toolkit (`src/scry.py`).

The pure core of the program is shallowly embedded below: Python strings
become Lean `String`/`List Char`, Python dicts become association lists,
network/browser responses become explicit oracle inputs at the adapter
boundary, and the filesystem used by the download engine becomes an
association list from filenames to byte lists.  Each definition is a direct
translation of the corresponding Python function (named after it where Lean
allows); regular-expression searches are translated into equivalent explicit
scans, with the equivalence argument recorded in comments.
-/

set_option maxRecDepth 4096
set_option maxHeartbeats 1000000

namespace Scry

/-! ### Basic character and string utilities (models of Python str methods) -/

/-- Model of Python `str.lower()` restricted to ASCII case mapping
(`Char.toLower` lowers exactly the ASCII range, like Python does on the
ASCII inputs this program manipulates). -/
def lowerL (cs : List Char) : List Char := cs.map Char.toLower

/-- The characters Python's `str.split()` / `\s` treat as whitespace
(ASCII range). -/
def isPySpace (c : Char) : Bool :=
  c == ' ' || c == '\t' || c == '\n' || c == '\r' || c == '\x0b' || c == '\x0c'

/-- Model of Python's substring test `pat in hay`. -/
def listContains : List Char → List Char → Bool
  | [], pat => pat.isEmpty
  | c :: rest, pat => pat.isPrefixOf (c :: rest) || listContains rest pat

/-- Worker for `replaceAll`, structurally recursive on a fuel argument so
that it reduces definitionally; `fuel = cs.length` always suffices because
each step consumes at least one character of `cs`. -/
def replaceFuel (pat repl : List Char) : Nat → List Char → List Char
  | _, [] => []
  | 0, cs => cs
  | fuel + 1, c :: rest =>
    if pat.isPrefixOf (c :: rest) && !pat.isEmpty then
      repl ++ replaceFuel pat repl fuel ((c :: rest).drop pat.length)
    else c :: replaceFuel pat repl fuel rest

/-- Model of Python `str.replace(pat, repl)`: leftmost, non-overlapping,
the replacement text is not rescanned.  (For the empty pattern it returns
the input unchanged; every pattern used by the program is non-empty.) -/
def replaceAll (pat repl cs : List Char) : List Char := replaceFuel pat repl cs.length cs

/-- Model of Python `str.strip()` (strip ASCII whitespace from both ends). -/
def stripWs (cs : List Char) : List Char :=
  ((cs.dropWhile isPySpace).reverse.dropWhile isPySpace).reverse

/-- Worker for `splitWs`; `acc` is the current word, reversed. -/
def splitWsAux : List Char → List Char → List String
  | [], acc => if acc.isEmpty then [] else [String.mk acc.reverse]
  | c :: rest, acc =>
    if isPySpace c then
      if acc.isEmpty then splitWsAux rest [] else String.mk acc.reverse :: splitWsAux rest []
    else splitWsAux rest (c :: acc)

/-- Model of Python `str.split()` with no argument: split on whitespace
runs, dropping empty fields. -/
def splitWs (cs : List Char) : List String := splitWsAux cs []

/-! ### Query resolver (`resolve_placeholders`, scry.py lines 131-141) -/

/-- Python truthiness of an optional string argument: `not domain` holds for
`None` and for the empty string. -/
def missingVal : Option String → Bool
  | none => true
  | some s => s.isEmpty

/-- `resolve_placeholders(text, domain, company)` (scry.py 131-141): raise
`ValueError` when a referenced placeholder has no (truthy) value, else
substitute `{domain}` first and `{company}` second via `str.replace`. -/
def resolve_placeholders (text : String) (domain company : Option String) :
    Except String String :=
  if listContains text.data (("{domain}").data) && missingVal domain then
    .error ("Dork contains {domain} but --domain not provided")
  else if listContains text.data (("{company}").data) && missingVal company then
    .error ("Dork contains {company} but --company not provided")
  else
    let o1 := match domain with
      | some d => if d.isEmpty then text.data else replaceAll (("{domain}").data) d.data text.data
      | none => text.data
    let o2 := match company with
      | some c => if c.isEmpty then o1 else replaceAll (("{company}").data) c.data o1
      | none => o1
    .ok (String.mk o2)

/-! ### URL parsing (model of `urllib.parse.urlparse` path/netloc extraction) -/

/-- Characters allowed in a URL scheme (Python `scheme_chars`). -/
def isSchemeChar (c : Char) : Bool := c.isAlpha || c.isDigit || c == '+' || c == '-' || c == '.'

/-- Strip a leading `scheme:` exactly when Python `urlsplit` would: the text
before the first `:` is non-empty, starts with an ASCII letter, and consists
of scheme characters only. -/
def schemeSplit (cs : List Char) : List Char :=
  let pre := cs.takeWhile (fun c => !(c == ':'))
  if pre.length < cs.length && !pre.isEmpty && (pre.headD ' ').isAlpha && pre.all isSchemeChar then
    cs.drop (pre.length + 1)
  else cs

/-- A character ending the netloc portion (Python `_splitnetloc`). -/
def isNetlocEnd (c : Char) : Bool := c == '/' || c == '?' || c == '#'

/-- `urlparse(url).netloc`: present only after a `//`, extending to the next
`/`, `?` or `#`. -/
def netlocOf (cs : List Char) : List Char :=
  let rest := schemeSplit cs
  if (("//").data).isPrefixOf rest then
    (rest.drop 2).takeWhile (fun c => !(isNetlocEnd c))
  else []

/-- The path portion before params splitting: after scheme and netloc, up to
the first `?` or `#` (Python splits the fragment first and the query second;
taking characters up to the first of the two delimiters is equivalent). -/
def rawPathOf (cs : List Char) : List Char :=
  let rest := schemeSplit cs
  let rest2 := if (("//").data).isPrefixOf rest then
      (rest.drop 2).dropWhile (fun c => !(isNetlocEnd c))
    else rest
  rest2.takeWhile (fun c => !(c == '?' || c == '#'))

/-- Model of Python `os.path.basename` (posix): the part after the last `/`. -/
def afterLastSlash (cs : List Char) : List Char :=
  (cs.reverse.takeWhile (fun c => !(c == '/'))).reverse

/-- `urlparse` params splitting: within the last path segment, drop a `;`
and everything after it. -/
def splitParamsOf (path : List Char) : List Char :=
  let tail := afterLastSlash path
  path.take (path.length - tail.length) ++ tail.takeWhile (fun c => !(c == ';'))

/-- `urlparse(url).path` for the URLs this program handles. -/
def pyUrlparsePath (cs : List Char) : List Char := splitParamsOf (rawPathOf cs)

/-- `_source_from_url` (scry.py 215-219): `urlparse(url).netloc.replace("www.", "")`.
The Python `try/except` around it cannot fire in this pure model. -/
def _source_from_url (url : String) : String :=
  String.mk (replaceAll (("www.").data) [] (netlocOf url.data))

/-! ### File classifier (`is_file_link`, scry.py 144-153) -/

/-- The character class `[a-z0-9]` (the classifier only sees lowered text). -/
def isExtChar (c : Char) : Bool := c.isLower || c.isDigit

/-- Model of `re.search(r"\.[a-z0-9]{2,5}$", path)`.  The regex matches iff
for some k in 2..5 the last k characters are alphanumeric and are preceded
by a dot; since `.` is not alphanumeric, k is forced to be the length of the
maximal alphanumeric suffix, giving this deterministic form. -/
def hasExtEnd (p : List Char) : Bool :=
  let run := p.reverse.takeWhile isExtChar
  2 ≤ run.length && run.length ≤ 5 &&
    ((p.reverse.dropWhile isExtChar).head? == some '.')

/-- Match of `[a-z0-9]{2,5}[?#]` at the head of `rest` (the text after a
dot); as above the alphanumeric run is forced to be maximal. -/
def extDelimAt (rest : List Char) : Bool :=
  let run := rest.takeWhile isExtChar
  let nxt := (rest.dropWhile isExtChar).head?
  2 ≤ run.length && run.length ≤ 5 && (nxt == some '?' || nxt == some '#')

/-- Model of `re.search(r"\.[a-z0-9]{2,5}[?#]", u)`: scan every position for
a dot followed by a 2-5 character alphanumeric run followed by `?` or `#`. -/
def hasExtDelim : List Char → Bool
  | [] => false
  | c :: rest => (c == '.' && extDelimAt rest) || hasExtDelim rest

/-- `is_file_link(url)` (scry.py 144-153). -/
def is_file_link (url : String) : Bool :=
  let lu := lowerL url.data
  let path := pyUrlparsePath lu
  if path.isEmpty || path.getLast? == some '/' then false
  else hasExtEnd path || hasExtDelim lu

/-- Specification-side predicate: the path ends in a 2-5 character
alphanumeric extension. -/
def EndsInExt (p : List Char) : Prop :=
  ∃ pre ext, p = pre ++ '.' :: ext ∧ 2 ≤ ext.length ∧ ext.length ≤ 5 ∧
    ∀ c ∈ ext, isExtChar c = true

/-- Specification-side predicate: somewhere in the text a dot is followed by
a 2-5 character alphanumeric run immediately followed by a query-string or
fragment delimiter. -/
def ExtBeforeDelim (u : List Char) : Prop :=
  ∃ pre ext d post, u = pre ++ '.' :: (ext ++ d :: post) ∧ 2 ≤ ext.length ∧
    ext.length ≤ 5 ∧ (∀ c ∈ ext, isExtChar c = true) ∧ (d = '?' ∨ d = '#')

/-- Specification-side characterisation of file-likeness. -/
def FileLike (url : String) : Prop :=
  pyUrlparsePath (lowerL url.data) ≠ [] ∧
  (pyUrlparsePath (lowerL url.data)).getLast? ≠ some '/' ∧
  (EndsInExt (pyUrlparsePath (lowerL url.data)) ∨ ExtBeforeDelim (lowerL url.data))

/-! ### Filename sanitizer (`sanitize_filename`, scry.py 166-176) -/

/-- The characters replaced by `_` (the `<>:"|?*` loop plus the two slash
replacements; all map to `_`, so one pass is equivalent to the Python
sequence of `str.replace` calls). -/
def isIllegalFsChar (c : Char) : Bool :=
  c == '<' || c == '>' || c == ':' || c == '"' || c == '|' || c == '?' || c == '*' ||
  c == '/' || c == '\\'

/-- Control characters dropped by the sanitizer (`ord(c) < 32`). -/
def isCtrl (c : Char) : Bool := c.toNat < 32

/-- The characters stripped from both ends by `name.strip(". ")`. -/
def isDotSpace (c : Char) : Bool := c == '.' || c == ' '

/-- Model of Python `str.strip(". ")`. -/
def stripDotSpace (cs : List Char) : List Char :=
  ((cs.dropWhile isDotSpace).reverse.dropWhile isDotSpace).reverse

/-- Model of `os.path.splitext` (posix, for names without separators): split
at the last dot provided some earlier character of the name is not a dot. -/
def splitextStemExt (cs : List Char) : List Char × List Char :=
  match cs.reverse.findIdx? (fun c => c == '.') with
  | none => (cs, [])
  | some j =>
    let d := cs.length - 1 - j
    if (cs.takeWhile (fun c => c == '.')).length < d then (cs.take d, cs.drop d) else (cs, [])

/-- `RESERVED_NAMES` (scry.py 108-112), as upper-case character lists. -/
def reservedStems : List (List Char) :=
  [['C','O','N'], ['P','R','N'], ['A','U','X'], ['N','U','L'],
   ['C','O','M','1'], ['C','O','M','2'], ['C','O','M','3'], ['C','O','M','4'],
   ['C','O','M','5'], ['C','O','M','6'], ['C','O','M','7'], ['C','O','M','8'],
   ['C','O','M','9'],
   ['L','P','T','1'], ['L','P','T','2'], ['L','P','T','3'], ['L','P','T','4'],
   ['L','P','T','5'], ['L','P','T','6'], ['L','P','T','7'], ['L','P','T','8'],
   ['L','P','T','9']]

/-- `sanitize_filename(name)` (scry.py 166-176). -/
def sanitize_filename (s : String) : String :=
  let cs1 := s.data.map (fun c => if isIllegalFsChar c then '_' else c)
  let cs2 := cs1.filter (fun c => !(isCtrl c))
  let cs3 := stripDotSpace cs2
  let cs4 := if cs3.isEmpty then ("file").data else cs3
  if (splitextStemExt cs4).1.map Char.toUpper ∈ reservedStems then
    String.mk ('_' :: cs4)
  else String.mk cs4

/-! ### Identifier generator (`EMAIL_FORMATS`, scry.py 60-71) -/

/-- `EMAIL_FORMATS` applied through `EMAIL_FORMATS.get(fmt_id, EMAIL_FORMATS[1])`
(scry.py 60-71 and 541): every id outside 1..10 uses convention 1.  The
formats using a first initial (`f[0]`, 3 and 8) or last initial (`l[0]`, 9)
raise `IndexError` on an empty token, modelled by `none`. -/
def applyEmailFormat (n : Nat) (f l d : String) : Option String :=
  let F := f.data
  let L := l.data
  let D := d.data
  if n == 2 then some (String.mk (F ++ L ++ '@' :: D))
  else if n == 3 then (if F.isEmpty then none else some (String.mk (F.take 1 ++ L ++ '@' :: D)))
  else if n == 4 then some (String.mk (F ++ '@' :: D))
  else if n == 5 then some (String.mk (L ++ '@' :: D))
  else if n == 6 then some (String.mk (L ++ '.' :: F ++ '@' :: D))
  else if n == 7 then some (String.mk (F ++ '_' :: L ++ '@' :: D))
  else if n == 8 then (if F.isEmpty then none else some (String.mk (F.take 1 ++ '.' :: L ++ '@' :: D)))
  else if n == 9 then (if L.isEmpty then none else some (String.mk (F ++ L.take 1 ++ '@' :: D)))
  else if n == 10 then some (String.mk (F ++ '.' :: L ++ '1' :: '@' :: D))
  else some (String.mk (F ++ '.' :: L ++ '@' :: D))

/-- A character fixed by ASCII lower-casing (i.e. not an upper-case letter). -/
def lowerFixedChar (c : Char) : Bool := c.toLower == c

/-- A string is fixed by ASCII lower-casing (the sense in which an email
string is "lowercase"). -/
def allLowerFixed (s : String) : Bool := s.data.all lowerFixedChar

/-! ### Identity extraction (scry.py 444-537) -/

/-- `TITLE_NOISE` (scry.py 114-122). -/
def TITLE_NOISE : List String :=
  ["dr", "mr", "mrs", "ms", "prof", "sir", "phd", "cpa", "cfa",
   "the", "and", "for", "with", "from", "about", "into",
   "top", "best", "new", "old", "bad", "good", "big", "open",
   "all", "any", "how", "why", "who", "what", "our", "you",
   "security", "cyber", "cloud", "data", "team", "lead",
   "senior", "junior", "staff", "chief", "head", "vice",
   "mad", "pro", "iii", "inc", "llc", "ltd"]

/-- `_clean_name_token` (scry.py 444-445): lower-case, keep only `a`-`z`. -/
def _clean_name_token (s : String) : String :=
  String.mk ((lowerL s.data).filter (fun c => 'a' ≤ c && c ≤ 'z'))

/-- The separator class of `re.split(r"[-–—|]", title, maxsplit=1)`. -/
def sepChars : List Char := ['-', '–', '—', '|']

/-- Characters kept by `re.sub(r"[^a-zA-Z\s]", "", ...)`. -/
def keepAlphaSpace (c : Char) : Bool := c.isAlpha || isPySpace c

/-- The word tokens of the part of the title before the first separator:
`parts[0]` of the maxsplit-1 split, with non-alphabetic non-space characters
removed, then whitespace-split (a preceding `.strip()` is absorbed by
`str.split()`). -/
def nameTokens (title : String) : List String :=
  splitWs ((title.data.takeWhile (fun c => !(sepChars.contains c))).filter keepAlphaSpace)

/-- Does the title contain one of the separators (so that the maxsplit-1
split yields two parts)? -/
def hasSep (title : String) : Bool := title.data.any (fun c => sepChars.contains c)

/-- `tokens[0], tokens[-1]` when at least two tokens remain. -/
def firstLastTok (ts : List String) : Option (String × String) :=
  match ts with
  | t0 :: t1 :: rest => some (t0, (t1 :: rest).getLastD (""))
  | _ => none

/-- `_extract_from_linkedin_title` (scry.py 461-468). -/
def _extract_from_linkedin_title (title : String) : Option (String × String) :=
  firstLastTok (nameTokens title)

/-- `_extract_from_rocketreach_title` (scry.py 481-488): same heuristic. -/
def _extract_from_rocketreach_title (title : String) : Option (String × String) :=
  firstLastTok (nameTokens title)

/-- `_extract_from_zoominfo_title` (scry.py 491-500): reject organization
pages, else the same heuristic. -/
def _extract_from_zoominfo_title (title : String) : Option (String × String) :=
  if listContains (lowerL title.data) (("overview").data) ||
     listContains (lowerL title.data) (("company").data) then none
  else firstLastTok (nameTokens title)

/-- The generic branch of `extract_names` (scry.py 520-527): only when a
separator is present and the first part has 2-4 alphabetic tokens. -/
def genericTitleExtract (title : String) : Option (String × String) :=
  if hasSep title then
    let ts := nameTokens title
    if 2 ≤ ts.length && ts.length ≤ 4 then firstLastTok ts else none
  else none

/-- The literal of the profile-URL regex. -/
def liLit : List Char := ("linkedin.com/in/").data

/-- Attempt of `linkedin\.com/in/([a-zA-Z]+-[a-zA-Z]+-?)` (case-insensitive)
at one start position: the literal, then a maximal alphabetic run, a dash,
and a second maximal alphabetic run (the optional trailing dash does not
affect the captured names, which `rstrip("-")` and `split("-")[:2]` reduce
to the two runs). -/
def liMatchAt (cs : List Char) : Option (List Char × List Char) :=
  if liLit.isPrefixOf (lowerL cs) then
    let after := cs.drop liLit.length
    let run1 := after.takeWhile Char.isAlpha
    match after.drop run1.length with
    | '-' :: rest2 =>
      let run2 := rest2.takeWhile Char.isAlpha
      if 1 ≤ run1.length && 1 ≤ run2.length then some (run1, run2) else none
    | _ => none
  else none

/-- `re.search` scan: try every start position, first match wins. -/
def liScan : List Char → Option (List Char × List Char)
  | [] => none
  | c :: rest =>
    match liMatchAt (c :: rest) with
    | some r => some r
    | none => liScan rest

/-- `_extract_from_linkedin_url` (scry.py 471-478). -/
def _extract_from_linkedin_url (url : String) : Option (String × String) :=
  match liScan url.data with
  | some (r1, r2) =>
    if 2 ≤ r1.length && 2 ≤ r2.length then some (String.mk r1, String.mk r2) else none
  | none => none

/-- One extracted identity candidate `(first, last, raw_title, source)`. -/
structure Candidate where
  first : String
  last : String
  rawTitle : String
  source : String
deriving DecidableEq

/-- Extraction state: the `seen` set of `(first, last)` keys (as a list) and
the output list. -/
abbrev ExtractSt := List (String × String) × List Candidate

/-- `_add_name` (scry.py 448-458).  The Python guard
`not first or not last or len(first) < 2 or len(last) < 2` is equivalent to
the two length checks. -/
def _add_name (first last rawTitle src : String) (st : ExtractSt) : ExtractSt :=
  let f := _clean_name_token first
  let l := _clean_name_token last
  if f.length < 2 || l.length < 2 then st
  else if TITLE_NOISE.contains f || TITLE_NOISE.contains l then st
  else if st.1.contains (f, l) then st
  else ((f, l) :: st.1, st.2 ++ [⟨f, l, rawTitle, src⟩])

/-- The body of the `extract_names` loop for one `(title, link)` item
(scry.py 507-535). -/
def processItem (st : ExtractSt) (title url : String) : ExtractSt :=
  let ll := lowerL url.data
  let src := _source_from_url url
  let extracted : Option (String × String) :=
    if listContains ll (("linkedin.com/in/").data) then
      match _extract_from_linkedin_title title with
      | some r => some r
      | none => _extract_from_linkedin_url url
    else if listContains ll (("rocketreach.co").data) then
      _extract_from_rocketreach_title title
    else if listContains ll (("zoominfo.com").data) then
      _extract_from_zoominfo_title title
    else genericTitleExtract title
  let st1 := match extracted with
    | some (f, l) => _add_name f l title src st
    | none => st
  if listContains ll (("linkedin.com/in/").data) then
    match _extract_from_linkedin_url url with
    | some (f, l) => _add_name f l title src st1
    | none => st1
  else st1

/-- `extract_names(items)` (scry.py 503-537). -/
def extract_names (items : List (String × String)) : List Candidate :=
  (items.foldl (fun st p => processItem st p.1 p.2) (([], []) : ExtractSt)).2

/-- The `(first, last)` uniqueness key of a candidate. -/
def candKey (c : Candidate) : String × String := (c.first, c.last)

/-- The character class `[a-z]`. -/
def isLowerAlpha (c : Char) : Bool := 'a' ≤ c && c ≤ 'z'

/-- The normalization invariant of an emitted candidate: both tokens are
lower-case alphabetic of length at least 2 and are not noise words. -/
def GoodCandidate (c : Candidate) : Prop :=
  2 ≤ c.first.length ∧ c.first.data.all isLowerAlpha = true ∧ c.first ∉ TITLE_NOISE ∧
  2 ≤ c.last.length ∧ c.last.data.all isLowerAlpha = true ∧ c.last ∉ TITLE_NOISE

/-- The loop invariant of the extraction run: the `seen` set and the output
keys coincide, the output keys are pairwise distinct, and every emitted
candidate is normalized. -/
def ExtractInv (st : ExtractSt) : Prop :=
  (∀ k, k ∈ st.1 ↔ k ∈ st.2.map candKey) ∧ (st.2.map candKey).Nodup ∧
    ∀ c ∈ st.2, GoodCandidate c

/-! ### Email record generation (`build_emails`, scry.py 540-561) -/

/-- Worker for `pyTitle`: the flag records whether the previous character
was alphabetic (cased). -/
def pyTitleGo : Bool → List Char → List Char
  | _, [] => []
  | prev, c :: rest =>
    if c.isAlpha then (if prev then c.toLower else c.toUpper) :: pyTitleGo true rest
    else c :: pyTitleGo false rest

/-- Model of Python `str.title()` on ASCII text. -/
def pyTitle (s : String) : String := String.mk (pyTitleGo false s.data)

/-- One generated identifier record (scry.py 553-560). -/
structure EmailRec where
  name : String
  email : String
  first : String
  last : String
  rawTitle : String
  source : String
deriving DecidableEq

/-- One iteration of the `build_emails` loop (scry.py 544-560): skip a
candidate with a missing component, apply the chosen convention (IndexError
skips the candidate), deduplicate by the generated email string. -/
def buildEmailStep (domain : String) (fmtId : Nat)
    (st : List String × List EmailRec) (c : Candidate) : List String × List EmailRec :=
  if c.first.isEmpty || c.last.isEmpty then st
  else match applyEmailFormat fmtId c.first c.last domain with
    | none => st
    | some email =>
      if st.1.contains email then st
      else (email :: st.1,
            st.2 ++ [⟨pyTitle c.first ++ " " ++ pyTitle c.last, email,
                      c.first, c.last, c.rawTitle, c.source⟩])

/-- `build_emails(names, domain, fmt_id)` (scry.py 540-561). -/
def build_emails (names : List Candidate) (domain : String) (fmtId : Nat) : List EmailRec :=
  (names.foldl (buildEmailStep domain fmtId) (([], []) : List String × List EmailRec)).2

/-! ### Aggregation (`cmd_contacts` 774-808, `cmd_files` 950-987) -/

/-- The contacts-path merge (scry.py 774-808): the Serper rows (kept when
title or link is non-empty, scry.py 786-789) are appended in order with no
URL-level deduplication, then the browser results are appended.  Items are
`(title, url)` pairs. -/
def contactsAggregate (api browser : List (String × String)) : List (String × String) :=
  api.filter (fun p => !(p.1 == "" && p.2 == "")) ++ browser

/-- The files-path merge loop (scry.py 962-965 and 984-987): append each
`(url, dork)` pair whose url is not yet in `seen`. -/
def mergeLinksGo : List (String × String) → List String → List (String × String) →
    List String × List (String × String)
  | [], seen, out => (seen, out)
  | (u, d) :: rest, seen, out =>
    if seen.contains u then mergeLinksGo rest seen out
    else mergeLinksGo rest (u :: seen) (out ++ [(u, d)])

/-- The files-path aggregation (scry.py 950-987): Serper results first, then
browser results, sharing one `seen` set. -/
def mergeFileLinks (api browser : List (String × String)) : List (String × String) :=
  let s1 := mergeLinksGo api [] []
  (mergeLinksGo browser s1.1 s1.2).2

/-! ### Download engine (`run_downloads`, scry.py 590-662) -/

/-- `MIME_TO_EXT` (scry.py 91-106). -/
def MIME_TO_EXT : List (String × String) :=
  [("application/pdf", ".pdf"),
   ("application/msword", ".doc"),
   ("application/vnd.openxmlformats-officedocument.wordprocessingml.document", ".docx"),
   ("application/vnd.ms-excel", ".xls"),
   ("application/vnd.openxmlformats-officedocument.spreadsheetml.sheet", ".xlsx"),
   ("application/vnd.ms-powerpoint", ".ppt"),
   ("application/vnd.openxmlformats-officedocument.presentationml.presentation", ".pptx"),
   ("application/zip", ".zip"),
   ("application/x-zip-compressed", ".zip"),
   ("text/plain", ".txt"),
   ("text/csv", ".csv"),
   ("image/jpeg", ".jpg"),
   ("image/png", ".png"),
   ("image/gif", ".gif")]

/-- The server-side script extensions corrected by content type (scry.py 627). -/
def scriptExts : List String := [".aspx", ".php", ".jsp", ".cgi", ".asp"]

/-- The single-quote character (written via its code point). -/
def squote : Char := Char.ofNat 39

/-- The double-quote character. -/
def dquote : Char := Char.ofNat 34

/-- The literal of the RFC 5987 filename regex `filename\*=UTF-8''`. -/
def cdStarLit : List Char := ("filename*=UTF-8").data ++ [squote, squote]

/-- The literal of the basic filename regex `filename=`. -/
def cdBasicLit : List Char := ("filename=").data

/-- The value character class `[^"\';\s]` of the basic filename regex. -/
def isCdValChar (c : Char) : Bool :=
  !(c == dquote || c == squote || c == ';' || isPySpace c)

/-- A hexadecimal digit's value. -/
def hexVal (c : Char) : Option Nat :=
  if c.isDigit then some (c.toNat - 48)
  else if 'a' ≤ c && c ≤ 'f' then some (c.toNat - 87)
  else if 'A' ≤ c && c ≤ 'F' then some (c.toNat - 55)
  else none

/-- Model of `urllib.parse.unquote`: decode `%xx` escapes (byte-wise; this
coincides with Python for the ASCII escapes relevant here), leave a `%` not
followed by two hex digits unchanged. -/
def unquoteL : List Char → List Char
  | [] => []
  | '%' :: a :: b :: rest =>
    match hexVal a, hexVal b with
    | some x, some y => Char.ofNat (16 * x + y) :: unquoteL rest
    | _, _ => '%' :: unquoteL (a :: b :: rest)
  | c :: rest => c :: unquoteL rest

/-- Scan for `filename\*=UTF-8''([^;]+)` (scry.py 614): at each position the
literal must match and the captured run must be non-empty, else the search
continues at the next position. -/
def scanCdStar : List Char → Option (List Char)
  | [] => none
  | c :: rest =>
    if cdStarLit.isPrefixOf (c :: rest) then
      let run := ((c :: rest).drop cdStarLit.length).takeWhile (fun x => !(x == ';'))
      if run.isEmpty then scanCdStar rest else some run
    else scanCdStar rest

/-- Scan for `filename=["\']?([^"\';\s]+)` (scry.py 618): the literal, an
optional opening quote, then a non-empty run of value characters.  (The
subsequent Python `strip("\"'")` is a no-op because the captured class
excludes both quotes.) -/
def scanCdBasic : List Char → Option (List Char)
  | [] => none
  | c :: rest =>
    if cdBasicLit.isPrefixOf (c :: rest) then
      let after := (c :: rest).drop cdBasicLit.length
      let afterQ := match after with
        | q :: more => if q == dquote || q == squote then more else after
        | [] => after
      let run := afterQ.takeWhile isCdValChar
      if run.isEmpty then scanCdBasic rest else some run
    else scanCdBasic rest

/-- The filename derivation of one download iteration (scry.py 612-631):
Content-Disposition (extended, then basic form), else the URL path's last
segment; correct a script extension by content type; fall back to
`file_<idx><ext>` when no dot remains; sanitize. -/
def deriveFilename (url : String) (cd ct : String) (idx : Nat) : String :=
  let fn0 : List Char :=
    if cd.data.isEmpty then []
    else match scanCdStar cd.data with
      | some run => unquoteL run
      | none => match scanCdBasic cd.data with
        | some run => run
        | none => []
  let fn1 := if fn0.isEmpty then unquoteL (afterLastSlash (pyUrlparsePath url.data)) else fn0
  let ctKey := String.mk (lowerL (stripWs (ct.data.takeWhile (fun c => !(c == ';')))))
  let mimeExt := (List.lookup ctKey MIME_TO_EXT).getD ("")
  let fn2 := if fn1.isEmpty then fn1 else
    let se := splitextStemExt fn1
    if scriptExts.contains (String.mk (lowerL se.2)) && !mimeExt.isEmpty then
      se.1 ++ mimeExt.data
    else fn1
  let fn3 := if fn2.isEmpty || !(listContains fn2 (['.'])) then
      ("file_").data ++ (Nat.repr idx).data ++ mimeExt.data
    else fn2
  sanitize_filename (String.mk fn3)

/-- The response of one fetch, at the adapter boundary: the two headers the
engine reads, the bytes that reach disk, and whether streaming completed
(`ok = false` models an exception while writing, leaving a partial file). -/
structure Resp where
  cd : String
  ct : String
  written : List Nat
  ok : Bool
deriving DecidableEq

/-- The engine state: counters, destination-directory contents (filename to
byte list), and the list of URLs for which an HTTP request was issued. -/
structure DlState where
  success : Nat
  failed : Nat
  totalBytes : Nat
  files : List (String × List Nat)
  fetchedUrls : List String
deriving DecidableEq

/-- The collision loop worker (scry.py 638-644): try `base_1`, `base_2`, ...
until a free name is found; the fuel `files.length + 1` suffices. -/
def collisionGo (files : List (String × List Nat)) (base fext : List Char) :
    Nat → Nat → String
  | 0, c => String.mk (base ++ '_' :: (Nat.repr c).data ++ fext)
  | fuel + 1, c =>
    let cand := String.mk (base ++ '_' :: (Nat.repr c).data ++ fext)
    if (List.lookup cand files).isSome then collisionGo files base fext fuel (c + 1) else cand

/-- `f"{base}_{counter}{fext}"` collision avoidance (scry.py 638-644). -/
def collisionName (files : List (String × List Nat)) (filename : String) : String :=
  let se := splitextStemExt filename.data
  collisionGo files se.1 se.2 (files.length + 1) 1

/-- One iteration of the download loop (scry.py 602-661).  The fetch is
issued first (lines 605-611, recorded in `fetchedUrls`); `o = none` models
an exception raised by the fetch itself (including FlareSolverr failure and
`raise_for_status`), counted as a failure.  Only then is the filename
derived from the response headers and the resume check performed (line 633):
on a hit the response is closed, the URL counts as a success and the
filesystem is untouched.  Otherwise the body is streamed to disk (a
mid-stream exception, `ok = false`, leaves the partial file and counts as a
failure).  The per-extension histogram of the source is not modelled; no
claim mentions it. -/
def downloadStep (resume : Bool) (st : DlState) (idx : Nat) (url : String)
    (o : Option Resp) : DlState :=
  let st := { st with fetchedUrls := st.fetchedUrls ++ [url] }
  match o with
  | none => { st with failed := st.failed + 1 }
  | some r =>
    let filename := deriveFilename url r.cd r.ct idx
    if resume && (List.lookup filename st.files).isSome then
      { st with success := st.success + 1 }
    else
      let finalName := if (List.lookup filename st.files).isSome then
          collisionName st.files filename
        else filename
      if r.ok then
        { st with files := st.files ++ [(finalName, r.written)],
                  totalBytes := st.totalBytes + r.written.length,
                  success := st.success + 1 }
      else
        { st with files := st.files ++ [(finalName, r.written)],
                  failed := st.failed + 1 }

/-- The download loop from a given 1-based index. -/
def runDownloads (resume : Bool) : Nat → DlState → List (String × Option Resp) → DlState
  | _, st, [] => st
  | idx, st, (u, o) :: rest => runDownloads resume (idx + 1) (downloadStep resume st idx u o) rest

/-- `run_downloads(urls, ...)` (scry.py 590-662) over a batch of URLs paired
with their fetch outcomes, starting from a state holding the pre-existing
destination-directory contents. -/
def run_downloads (resume : Bool) (st : DlState) (items : List (String × Option Resp)) : DlState :=
  runDownloads resume 1 st items

/-! ## Auxiliary lemmas -/

theorem all_take_of_all {q : Char → Bool} {l : List Char} (h : l.all q = true) (n : Nat) :
    (l.take n).all q = true := by
  rw [List.all_eq_true] at *
  intro x hx
  exact h x ((List.take_sublist n l).mem hx)

theorem scry_contains_iff {α : Type} [BEq α] [LawfulBEq α] (l : List α) (u : α) :
    l.contains u = true ↔ u ∈ l :=
  List.elem_iff

theorem find?_append_of_some {α : Type} {l1 : List α} {p : α → Bool} {x : α}
    (h : l1.find? p = some x) (l2 : List α) : (l1 ++ l2).find? p = some x := by
  induction l1 with
  | nil => simp [List.find?] at h
  | cons a l ih =>
    rw [List.find?_cons] at h
    cases hp : p a with
    | true => rw [hp] at h; simpa [List.find?_cons, hp] using h
    | false => rw [hp] at h; simpa [List.find?_cons, hp] using ih h

theorem find?_append_of_none {α : Type} {l1 : List α} {p : α → Bool}
    (h : l1.find? p = none) (l2 : List α) : (l1 ++ l2).find? p = l2.find? p := by
  induction l1 with
  | nil => simp
  | cons a l ih =>
    rw [List.find?_cons] at h
    cases hp : p a with
    | true => rw [hp] at h; simp at h
    | false => rw [hp] at h; simpa [List.find?_cons, hp] using ih h

/-! ## Claim theorems -/

/-- C6: query resolution fails with the missing-placeholder error exactly
when the template mentions `{domain}` with no domain value supplied or
`{company}` with no company value supplied (the source tests Python
truthiness, so a supplied empty string counts as missing); otherwise it
succeeds by literal substitution, e.g. `site:{domain} filetype:pdf` with
domain `acme.com` yields `site:acme.com filetype:pdf`. -/
theorem resolve_placeholders_spec :
    (∀ (t : String) (d c : Option String),
      ((∃ msg, resolve_placeholders t d c = .error msg) ↔
        ((listContains t.data (("{domain}").data) = true ∧ missingVal d = true) ∨
         (listContains t.data (("{company}").data) = true ∧ missingVal c = true))))
    ∧ resolve_placeholders ("site:{domain} filetype:pdf") (some ("acme.com")) none =
        .ok ("site:acme.com filetype:pdf")
    ∧ resolve_placeholders ("site:{domain} filetype:pdf") none none =
        .error ("Dork contains {domain} but --domain not provided") := by
  refine ⟨?_, by rfl, by rfl⟩
  intro t d c
  cases h1 : (listContains t.data (("{domain}").data) && missingVal d) with
  | true =>
    rw [Bool.and_eq_true] at h1
    constructor
    · intro _
      exact Or.inl ⟨h1.1, h1.2⟩
    · intro _
      exact ⟨("Dork contains {domain} but --domain not provided"),
        by simp [resolve_placeholders, h1.1, h1.2]⟩
  | false =>
    cases h2 : (listContains t.data (("{company}").data) && missingVal c) with
    | true =>
      have h2' := h2
      rw [Bool.and_eq_true] at h2'
      constructor
      · intro _
        exact Or.inr ⟨h2'.1, h2'.2⟩
      · intro _
        exact ⟨("Dork contains {company} but --company not provided"),
          by simp [resolve_placeholders, h1, h2'.1, h2'.2]⟩
    | false =>
      constructor
      · intro hex
        rcases hex with ⟨msg, hmsg⟩
        simp [resolve_placeholders, h1, h2] at hmsg
      · intro hor
        rcases hor with ⟨ha, hb⟩ | ⟨ha, hb⟩
        · rw [ha, hb] at h1
          simp at h1
        · rw [ha, hb] at h2
          simp at h2

/-- C6 witness: a template referencing `{company}` with no company value
fails, by the characterisation above. -/
theorem resolve_placeholders_spec_witness :
    ∃ msg, resolve_placeholders ("intext:{company} resume") none none = .error msg :=
  (resolve_placeholders_spec.1 ("intext:{company} resume") none none).mpr
    (Or.inr ⟨by decide, by decide⟩)

/-- C2 counterexample: the generator applies the convention verbatim and
never lower-cases, so a mixed-case domain (exactly what the pipeline passes
through unchanged) yields an output that is not the documented convention's
lowercase email string. -/
theorem applyEmailFormat_not_lowercase :
    applyEmailFormat 1 ("john") ("smith") ("Acme.COM") = some ("john.smith@Acme.COM")
    ∧ allLowerFixed ("john.smith@Acme.COM") = false
    ∧ ("john.smith@Acme.COM" : String) ≠ ("john.smith@acme.com") := by
  refine ⟨by decide, by decide, by decide⟩

/-- C2 (amended): for non-empty name components the generator always
produces a value, any format id outside 1..10 produces exactly what format 1
produces, the function is deterministic, the output is lowercase whenever
the inputs are, and on (`john`, `smith`, `acme.com`) each of the ten
conventions yields the documented string (format 3 `jsmith@acme.com`,
format 6 `smith.john@acme.com`, ...). -/
theorem applyEmailFormat_spec :
    ∀ (f l d : String) (n : Nat), f ≠ ("") → l ≠ ("") →
      ((applyEmailFormat n f l d).isSome = true)
      ∧ ((n = 0 ∨ 10 < n) → applyEmailFormat n f l d = applyEmailFormat 1 f l d)
      ∧ (allLowerFixed f = true → allLowerFixed l = true → allLowerFixed d = true →
          ∀ e, applyEmailFormat n f l d = some e → allLowerFixed e = true)
      ∧ applyEmailFormat n f l d = applyEmailFormat n f l d
      ∧ applyEmailFormat 1 ("john") ("smith") ("acme.com") = some ("john.smith@acme.com")
      ∧ applyEmailFormat 2 ("john") ("smith") ("acme.com") = some ("johnsmith@acme.com")
      ∧ applyEmailFormat 3 ("john") ("smith") ("acme.com") = some ("jsmith@acme.com")
      ∧ applyEmailFormat 4 ("john") ("smith") ("acme.com") = some ("john@acme.com")
      ∧ applyEmailFormat 5 ("john") ("smith") ("acme.com") = some ("smith@acme.com")
      ∧ applyEmailFormat 6 ("john") ("smith") ("acme.com") = some ("smith.john@acme.com")
      ∧ applyEmailFormat 7 ("john") ("smith") ("acme.com") = some ("john_smith@acme.com")
      ∧ applyEmailFormat 8 ("john") ("smith") ("acme.com") = some ("j.smith@acme.com")
      ∧ applyEmailFormat 9 ("john") ("smith") ("acme.com") = some ("johns@acme.com")
      ∧ applyEmailFormat 10 ("john") ("smith") ("acme.com") = some ("john.smith1@acme.com") := by
  intro f l d n hf hl
  have hFe : f.data.isEmpty = false := by
    cases hfd : f.data with
    | nil => exact absurd (by cases f; simp_all) hf
    | cons a as => rfl
  have hLe : l.data.isEmpty = false := by
    cases hld : l.data with
    | nil => exact absurd (by cases l; simp_all) hl
    | cons a as => rfl
  refine ⟨?_, ?_, ?_, rfl, by decide, by decide, by decide, by decide, by decide,
    by decide, by decide, by decide, by decide, by decide⟩
  · simp only [applyEmailFormat]
    split_ifs <;> simp_all
  · intro hn
    have h2 : ¬((n == 2) = true) := ne_true_of_eq_false (beq_eq_false_iff_ne.mpr (by omega))
    have h3 : ¬((n == 3) = true) := ne_true_of_eq_false (beq_eq_false_iff_ne.mpr (by omega))
    have h4 : ¬((n == 4) = true) := ne_true_of_eq_false (beq_eq_false_iff_ne.mpr (by omega))
    have h5 : ¬((n == 5) = true) := ne_true_of_eq_false (beq_eq_false_iff_ne.mpr (by omega))
    have h6 : ¬((n == 6) = true) := ne_true_of_eq_false (beq_eq_false_iff_ne.mpr (by omega))
    have h7 : ¬((n == 7) = true) := ne_true_of_eq_false (beq_eq_false_iff_ne.mpr (by omega))
    have h8 : ¬((n == 8) = true) := ne_true_of_eq_false (beq_eq_false_iff_ne.mpr (by omega))
    have h9 : ¬((n == 9) = true) := ne_true_of_eq_false (beq_eq_false_iff_ne.mpr (by omega))
    have h10 : ¬((n == 10) = true) := ne_true_of_eq_false (beq_eq_false_iff_ne.mpr (by omega))
    show applyEmailFormat n f l d = applyEmailFormat 1 f l d
    simp only [applyEmailFormat]
    rw [if_neg h2, if_neg h3, if_neg h4, if_neg h5, if_neg h6, if_neg h7, if_neg h8,
      if_neg h9, if_neg h10]
    rfl
  · intro hf' hl' hd' e he
    have hfa : f.data.all lowerFixedChar = true := hf'
    have hla : l.data.all lowerFixedChar = true := hl'
    have hda : d.data.all lowerFixedChar = true := hd'
    have hft : (f.data.take 1).all lowerFixedChar = true := all_take_of_all hfa 1
    have hlt : (l.data.take 1).all lowerFixedChar = true := all_take_of_all hla 1
    have cdot : lowerFixedChar '.' = true := by decide
    have cat : lowerFixedChar '@' = true := by decide
    have cund : lowerFixedChar '_' = true := by decide
    have cone : lowerFixedChar '1' = true := by decide
    simp only [applyEmailFormat] at he
    split_ifs at he <;>
      first
      | exact Option.noConfusion he
      | (rw [Option.some.injEq] at he
         subst he
         simp [allLowerFixed, List.all_append, List.all_cons, hfa, hla, hda, hft, hlt,
           cdot, cat, cund, cone])

/-- C2 witness: the amended claim instantiated at format 3 on non-empty
lowercase inputs. -/
theorem applyEmailFormat_spec_witness :
    (applyEmailFormat 3 ("john") ("smith") ("acme.com")).isSome = true ∧
    applyEmailFormat 3 ("john") ("smith") ("acme.com") = some ("jsmith@acme.com") :=
  ⟨(applyEmailFormat_spec ("john") ("smith") ("acme.com") 3 (by decide) (by decide)).1,
   (applyEmailFormat_spec ("john") ("smith") ("acme.com") 3 (by decide) (by decide)).2.2.2.2.2.2.1⟩

/-- Each download iteration resolves to exactly one of success or failure. -/
theorem downloadStep_one (resume : Bool) (st : DlState) (idx : Nat) (url : String)
    (o : Option Resp) :
    (downloadStep resume st idx url o).success + (downloadStep resume st idx url o).failed
      = st.success + st.failed + 1 := by
  cases o with
  | none => simp [downloadStep]; omega
  | some r =>
    simp only [downloadStep]
    split_ifs <;> simp <;> omega

/-- Counting invariant of the download loop. -/
theorem runDownloads_counts (resume : Bool) (items : List (String × Option Resp)) :
    ∀ (idx : Nat) (st : DlState),
      (runDownloads resume idx st items).success + (runDownloads resume idx st items).failed
        = st.success + st.failed + items.length := by
  induction items with
  | nil => intro idx st; simp [runDownloads]
  | cons hd tl ih =>
    intro idx st
    cases hd with
    | mk u o =>
      simp only [runDownloads]
      rw [ih, downloadStep_one]
      simp [List.length_cons]
      omega

/-- The download loop over a concatenation is the loop over the first part
followed by the loop over the second. -/
theorem runDownloads_append (resume : Bool) (pre : List (String × Option Resp)) :
    ∀ (post : List (String × Option Resp)) (idx : Nat) (st : DlState),
      runDownloads resume idx st (pre ++ post)
        = runDownloads resume (idx + pre.length) (runDownloads resume idx st pre) post := by
  induction pre with
  | nil => intro post idx st; simp [runDownloads]
  | cons hd tl ih =>
    intro post idx st
    cases hd with
    | mk u o =>
      simp only [List.cons_append, runDownloads, List.length_cons, List.append_eq]
      rw [ih]
      have harith : idx + 1 + tl.length = idx + (tl.length + 1) := by omega
      rw [harith]

/-- C5: every exception of one URL's iteration is absorbed into that
iteration (each iteration adds exactly one to success + failed and the loop
then continues with the remaining URLs), so for every batch the returned
success count plus failure count equals the batch size; and processing a
batch decomposes into processing any prefix followed by the rest, whatever
the outcomes of the prefix were. -/
theorem run_downloads_isolation :
    ∀ (resume : Bool) (st : DlState) (items : List (String × Option Resp)),
      ((run_downloads resume st items).success + (run_downloads resume st items).failed
        = st.success + st.failed + items.length)
      ∧ (∀ (pre post : List (String × Option Resp)) (idx : Nat) (s : DlState),
          runDownloads resume idx s (pre ++ post)
            = runDownloads resume (idx + pre.length) (runDownloads resume idx s pre) post) :=
  fun resume st items =>
    ⟨runDownloads_counts resume items 1 st,
     fun pre post idx s => runDownloads_append resume pre post idx s⟩

/-- C3 counterexample: with resume enabled and `report.pdf` already present,
the iteration still issues the HTTP request for the URL (the request happens
before the resume check, because the final name depends on the response
headers); the URL is counted as a success and the file is untouched, but it
is not "skipped without fetching". -/
theorem resume_skip_still_fetches :
    (downloadStep true ⟨0, 0, 0, [(("report.pdf"), [7, 7])], []⟩ 1
        ("https://acme.com/files/report.pdf")
        (some ⟨(""), ("application/pdf"), [1, 2, 3], true⟩)).fetchedUrls
      = [("https://acme.com/files/report.pdf")]
    ∧ (downloadStep true ⟨0, 0, 0, [(("report.pdf"), [7, 7])], []⟩ 1
        ("https://acme.com/files/report.pdf")
        (some ⟨(""), ("application/pdf"), [1, 2, 3], true⟩)).success = 1
    ∧ (downloadStep true ⟨0, 0, 0, [(("report.pdf"), [7, 7])], []⟩ 1
        ("https://acme.com/files/report.pdf")
        (some ⟨(""), ("application/pdf"), [1, 2, 3], true⟩)).files
      = [(("report.pdf"), [7, 7])] := by
  refine ⟨by decide, by decide, by decide⟩

/-- C3 (amended): if resume is enabled and a file with the final sanitized
name (derived from the URL and the fetched response's headers) already
exists at the destination, the URL's body is not written: the iteration
counts it as a success and leaves every file's bytes, the failure counter
and the byte counter unchanged — but the initial HTTP request for the URL is
still issued, since the final name depends on the response headers. -/
theorem run_downloads_resume_skip :
    ∀ (st : DlState) (idx : Nat) (url : String) (r : Resp),
      (List.lookup (deriveFilename url r.cd r.ct idx) st.files).isSome = true →
      downloadStep true st idx url (some r) =
        { st with success := st.success + 1,
                  fetchedUrls := st.fetchedUrls ++ [url] } := by
  intro st idx url r h
  simp [downloadStep, h]

/-- C3 witness: the amended claim at the concrete resume-hit state. -/
theorem run_downloads_resume_skip_witness :
    downloadStep true ⟨2, 3, 5, [(("report.pdf"), [7, 7])], [("u0")]⟩ 1
        ("https://acme.com/files/report.pdf")
        (some ⟨(""), ("application/pdf"), [1, 2, 3], true⟩)
      = { (⟨2, 3, 5, [(("report.pdf"), [7, 7])], [("u0")]⟩ : DlState) with
            success := 2 + 1,
            fetchedUrls := [("u0")] ++ [("https://acme.com/files/report.pdf")] } :=
  run_downloads_resume_skip ⟨2, 3, 5, [(("report.pdf"), [7, 7])], [("u0")]⟩ 1
    ("https://acme.com/files/report.pdf")
    ⟨(""), ("application/pdf"), [1, 2, 3], true⟩ (by decide)

theorem find?_eq_none_of_not_mem_keys {l : List (String × String)} {u : String}
    (h : u ∉ l.map Prod.fst) : l.find? (fun p => p.1 == u) = none := by
  rw [List.find?_eq_none]
  intro x hx hbeq
  exact h (List.mem_map.mpr ⟨x, hx, by exact (beq_iff_eq.mp hbeq)⟩)

theorem find?_isSome_of_mem_keys {l : List (String × String)} {u : String}
    (h : u ∈ l.map Prod.fst) : ∃ x, l.find? (fun p => p.1 == u) = some x := by
  cases hf : l.find? (fun p => p.1 == u) with
  | some x => exact ⟨x, rfl⟩
  | none =>
    rw [List.find?_eq_none] at hf
    rcases List.mem_map.mp h with ⟨x, hx, hxe⟩
    exact absurd (beq_iff_eq.mpr hxe) (hf x hx)

theorem find?_middle_of_not {l1 l2 : List (String × String)} {x : String × String}
    {p : String × String → Bool} (hx : p x = false) :
    (l1 ++ x :: l2).find? p = (l1 ++ l2).find? p := by
  cases hf : l1.find? p with
  | some y => rw [find?_append_of_some hf, find?_append_of_some hf]
  | none =>
    rw [find?_append_of_none hf, find?_append_of_none hf, List.find?_cons, hx]


/-- The dedup invariant of the files-path merge loop. -/
theorem mergeLinksGo_spec :
    ∀ (items : List (String × String)) (seen : List String) (out : List (String × String)),
      (∀ u, u ∈ seen ↔ u ∈ out.map Prod.fst) →
      (out.map Prod.fst).Nodup →
      (((mergeLinksGo items seen out).2.map Prod.fst).Nodup
       ∧ (∀ u, u ∈ seen → (mergeLinksGo items seen out).2.find? (fun p => p.1 == u)
             = out.find? (fun p => p.1 == u))
       ∧ (∀ u, u ∉ seen → (mergeLinksGo items seen out).2.find? (fun p => p.1 == u)
             = (out ++ items).find? (fun p => p.1 == u))
       ∧ (∀ u, u ∈ (mergeLinksGo items seen out).2.map Prod.fst
             ↔ u ∈ out.map Prod.fst ∨ u ∈ items.map Prod.fst)) := by
  intro items
  induction items with
  | nil =>
    intro seen out hinv hnd
    refine ⟨hnd, fun u _ => rfl, fun u hu => by simp [mergeLinksGo], fun u => by simp [mergeLinksGo]⟩
  | cons vd rest ih =>
    intro seen out hinv hnd
    cases vd with
    | mk v dk =>
      by_cases hv : v ∈ seen
      · rw [show mergeLinksGo ((v, dk) :: rest) seen out = mergeLinksGo rest seen out from by
          simp [mergeLinksGo, hv]]
        rcases ih seen out hinv hnd with ⟨ihnd, ih1, ih2, ih3⟩
        refine ⟨ihnd, ih1, ?_, ?_⟩
        · intro u hu
          rw [ih2 u hu]
          have huv : v ≠ u := fun h => hu (h ▸ hv)
          have hbf : ((fun p => p.1 == u) ((v, dk) : String × String)) = false :=
            beq_eq_false_iff_ne.mpr huv
          exact (find?_middle_of_not hbf).symm
        · intro u
          rw [ih3 u]
          constructor
          · rintro (h | h)
            · exact Or.inl h
            · exact Or.inr (by simp [List.map_cons]; exact Or.inr (by simpa using h))
          · rintro (h | h)
            · exact Or.inl h
            · rcases (by simpa [List.map_cons] using h : u = v ∨ u ∈ rest.map Prod.fst) with h' | h'
              · exact Or.inl ((hinv u).mp (h' ▸ hv))
              · exact Or.inr h'
      · have hv' : ¬(seen.contains v = true) := fun h => hv (List.elem_iff.mp h)
        rw [show mergeLinksGo ((v, dk) :: rest) seen out
            = mergeLinksGo rest (v :: seen) (out ++ [(v, dk)]) from by
          simp only [mergeLinksGo]
          rw [if_neg hv']]
        have hvout : v ∉ out.map Prod.fst := fun h => hv ((hinv v).mpr h)
        have hinv' : ∀ u, u ∈ v :: seen ↔ u ∈ (out ++ [(v, dk)]).map Prod.fst := by
          intro u
          rw [List.mem_cons, List.map_append, List.mem_append, List.map_singleton,
            List.mem_singleton]
          constructor
          · rintro (h | h)
            · exact Or.inr h
            · exact Or.inl ((hinv u).mp h)
          · rintro (h | h)
            · exact Or.inr ((hinv u).mpr h)
            · exact Or.inl h
        have hnd' : ((out ++ [(v, dk)]).map Prod.fst).Nodup := by
          rw [List.map_append, List.nodup_append]
          exact ⟨hnd, by simp, by
            intro a ha hb
            rw [List.map_singleton, List.mem_singleton] at hb
            rw [hb] at ha
            exact hvout ha⟩
        rcases ih (v :: seen) (out ++ [(v, dk)]) hinv' hnd' with ⟨ihnd, ih1, ih2, ih3⟩
        refine ⟨ihnd, ?_, ?_, ?_⟩
        · intro u hu
          have : u ∈ v :: seen := List.mem_cons_of_mem v hu
          rw [ih1 u this]
          have huout : u ∈ out.map Prod.fst := (hinv u).mp hu
          rcases find?_isSome_of_mem_keys huout with ⟨x, hx⟩
          rw [find?_append_of_some hx, hx]
        · intro u hu
          by_cases huv : u = v
          · subst huv
            rw [ih1 u (List.mem_cons_self u seen)]
            have hnone : out.find? (fun p => p.1 == u) = none :=
              find?_eq_none_of_not_mem_keys hvout
            rw [find?_append_of_none hnone, find?_append_of_none hnone]
            simp [List.find?_cons]
          · have : u ∉ v :: seen := by
              rw [List.mem_cons]
              rintro (h | h)
              · exact huv h
              · exact hu h
            rw [ih2 u this, List.append_assoc, List.singleton_append]
        · intro u
          rw [ih3 u]
          rw [List.map_append, List.mem_append, List.map_singleton, List.mem_singleton,
            List.map_cons, List.mem_cons]
          constructor
          · rintro ((h | h) | h)
            · exact Or.inl h
            · exact Or.inr (Or.inl h)
            · exact Or.inr (Or.inr h)
          · rintro (h | (h | h))
            · exact Or.inl (Or.inl h)
            · exact Or.inl (Or.inr h)
            · exact Or.inr h

theorem mergeLinksGo_append :
    ∀ (a b : List (String × String)) (seen : List String) (out : List (String × String)),
      mergeLinksGo (a ++ b) seen out
        = mergeLinksGo b (mergeLinksGo a seen out).1 (mergeLinksGo a seen out).2 := by
  intro a
  induction a with
  | nil => intro b seen out; rfl
  | cons vd rest ih =>
    intro b seen out
    cases vd with
    | mk v dk =>
      simp only [List.cons_append, mergeLinksGo]
      by_cases hv : seen.contains v = true
      · rw [if_pos hv, if_pos hv]
        exact ih b seen out
      · rw [if_neg hv, if_neg hv]
        exact ih b (v :: seen) (out ++ [(v, dk)])


/-- C1 (amended): the files-path merge contains each URL at most once
(first occurrence in API-then-browser order retained, as witnessed by
`find?` agreeing with the concatenated input), covering exactly the URLs of
the two adapter outputs; the contacts path, by contrast, concatenates the
two outputs with no URL-level deduplication (occurrence counts add up). -/
theorem aggregate_dedup_spec :
    ∀ (api browser : List (String × String)),
      (((mergeFileLinks api browser).map Prod.fst).Nodup)
      ∧ (∀ u, (mergeFileLinks api browser).find? (fun p => p.1 == u)
            = (api ++ browser).find? (fun p => p.1 == u))
      ∧ (∀ u, u ∈ (mergeFileLinks api browser).map Prod.fst
            ↔ u ∈ (api ++ browser).map Prod.fst)
      ∧ (∀ (capi cbrowser : List (String × String)) (u : String),
          (contactsAggregate capi cbrowser).countP (fun p => p.2 == u)
            = (capi.filter (fun p => !(p.1 == "" && p.2 == ""))).countP (fun p => p.2 == u)
              + cbrowser.countP (fun p => p.2 == u)) := by
  intro api browser
  have hmerge : mergeFileLinks api browser = (mergeLinksGo (api ++ browser) [] []).2 := by
    rw [mergeLinksGo_append]
    rfl
  have hinv : ∀ u : String, u ∈ ([] : List String) ↔ u ∈ (([] : List (String × String)).map Prod.fst) := by
    simp
  rcases mergeLinksGo_spec (api ++ browser) [] [] hinv (by simp) with ⟨hnd, _, h2, h3⟩
  refine ⟨?_, ?_, ?_, ?_⟩
  · rw [hmerge]; exact hnd
  · intro u
    rw [hmerge, h2 u (by simp)]
    rfl
  · intro u
    rw [hmerge, h3 u]
    simp
  · intro capi cbrowser u
    rw [contactsAggregate, List.countP_append]


/-- The dedup invariant of the `build_emails` fold. -/
theorem buildEmail_fold_inv (domain : String) (fmtId : Nat) :
    ∀ (names : List Candidate) (seen : List String) (out : List EmailRec),
      (out.map EmailRec.email).Nodup →
      (∀ e, e ∈ out.map EmailRec.email → e ∈ seen) →
      (((names.foldl (buildEmailStep domain fmtId) (seen, out)).2.map EmailRec.email).Nodup
       ∧ ∀ e, e ∈ (names.foldl (buildEmailStep domain fmtId) (seen, out)).2.map EmailRec.email →
           e ∈ (names.foldl (buildEmailStep domain fmtId) (seen, out)).1) := by
  intro names
  induction names with
  | nil => intro seen out h1 h2; exact ⟨h1, h2⟩
  | cons c cs ih =>
    intro seen out h1 h2
    simp only [List.foldl_cons]
    cases hguard : (c.first.isEmpty || c.last.isEmpty) with
    | true =>
      rw [show buildEmailStep domain fmtId (seen, out) c = (seen, out) from by
        simp [buildEmailStep, hguard]]
      exact ih seen out h1 h2
    | false =>
      cases hap : applyEmailFormat fmtId c.first c.last domain with
      | none =>
        rw [show buildEmailStep domain fmtId (seen, out) c = (seen, out) from by
          simp [buildEmailStep, hguard, hap]]
        exact ih seen out h1 h2
      | some em =>
        by_cases hseen : em ∈ seen
        · rw [show buildEmailStep domain fmtId (seen, out) c = (seen, out) from by
            simp [buildEmailStep, hguard, hap, hseen]]
          exact ih seen out h1 h2
        · have hnm : em ∉ seen := hseen
          rw [show buildEmailStep domain fmtId (seen, out) c
              = (em :: seen,
                 out ++ [⟨pyTitle c.first ++ " " ++ pyTitle c.last, em,
                          c.first, c.last, c.rawTitle, c.source⟩]) from by
            simp [buildEmailStep, hguard, hap, hseen]]
          apply ih
          · rw [List.map_append]
            rw [List.nodup_append]
            refine ⟨h1, List.nodup_singleton em, ?_⟩
            intro e he hee
            rw [List.map_singleton, List.mem_singleton] at hee
            subst hee
            exact hnm (h2 _ he)
          · intro e he
            rw [List.map_append, List.mem_append] at he
            cases he with
            | inl h => exact List.mem_cons_of_mem em (h2 e h)
            | inr h =>
              rw [List.map_singleton, List.mem_singleton] at h
              rw [h]
              exact List.mem_cons_self _ _


/-- C8: the identifier generator's output is deduplicated by the generated
email string — the emitted records have pairwise-distinct email fields for
every input — and when (`john`, `smith`) and (`jane`, `smith`) collide on
`jsmith` under convention 3, only the record of the first candidate in
input order is emitted. -/
theorem build_emails_dedup :
    ∀ (names : List Candidate) (domain : String) (fmtId : Nat),
      (((build_emails names domain fmtId).map EmailRec.email).Nodup)
      ∧ build_emails
          [⟨("john"), ("smith"), ("t1"), ("s1")⟩, ⟨("jane"), ("smith"), ("t2"), ("s2")⟩]
          ("acme.com") 3
        = [⟨("John Smith"), ("jsmith@acme.com"), ("john"), ("smith"), ("t1"), ("s1")⟩] := by
  intro names domain fmtId
  refine ⟨?_, by decide⟩
  exact (buildEmail_fold_inv domain fmtId names [] [] (by simp) (by simp)).1


/-- C1 counterexample: the contacts-path merge performs no URL-level
deduplication — a URL returned by both adapters appears twice in the merged
sequence, not exactly once. -/
theorem contacts_merge_keeps_duplicate_url :
    contactsAggregate [(("T1"), ("u"))] [(("T2"), ("u"))]
        = [(("T1"), ("u")), (("T2"), ("u"))]
    ∧ (contactsAggregate [(("T1"), ("u"))] [(("T2"), ("u"))]).countP
        (fun p => p.2 == ("u")) = 2 := by
  refine ⟨by decide, by decide⟩

/-- C1 witness: the amended claim instantiated on overlapping adapter
outputs. -/
theorem aggregate_dedup_spec_witness :
    ((mergeFileLinks [(("u1"), ("d1")), (("u2"), ("d2"))]
        [(("u1"), ("d3")), (("u3"), ("d4"))]).map Prod.fst).Nodup
    ∧ (mergeFileLinks [(("u1"), ("d1")), (("u2"), ("d2"))]
        [(("u1"), ("d3")), (("u3"), ("d4"))]).find? (fun p => p.1 == ("u1"))
      = ([(("u1"), ("d1")), (("u2"), ("d2"))] ++ [(("u1"), ("d3")), (("u3"), ("d4"))]).find?
          (fun p => p.1 == ("u1")) :=
  ⟨(aggregate_dedup_spec [(("u1"), ("d1")), (("u2"), ("d2"))]
      [(("u1"), ("d3")), (("u3"), ("d4"))]).1,
   (aggregate_dedup_spec [(("u1"), ("d1")), (("u2"), ("d2"))]
      [(("u1"), ("d3")), (("u3"), ("d4"))]).2.1 ("u1")⟩

/-- Tokens produced by `_clean_name_token` consist of `a`-`z` only. -/
theorem clean_name_token_lower (s : String) :
    (_clean_name_token s).data.all isLowerAlpha = true := by
  rw [List.all_eq_true]
  intro c hc
  have : c ∈ (lowerL s.data).filter (fun c => 'a' ≤ c && c ≤ 'z') := hc
  exact (List.mem_filter.mp this).2

/-- Case analysis of `_add_name`: either the state is unchanged, or a
normalized unseen candidate is appended and its key recorded. -/
theorem add_name_inv (first last raw src : String) (st : ExtractSt)
    (h : ExtractInv st) : ExtractInv (_add_name first last raw src st) := by
  simp only [_add_name]
  split_ifs with g1 g2 g3
  · exact h
  · exact h
  · exact h
  · rcases h with ⟨hiff, hnd, hgood⟩
    have hlen : 2 ≤ (_clean_name_token first).length ∧ 2 ≤ (_clean_name_token last).length := by
      rcases Nat.lt_or_ge (_clean_name_token first).length 2 with hlt | hge
      · exact absurd (by simp [hlt]) g1
      · rcases Nat.lt_or_ge (_clean_name_token last).length 2 with hlt2 | hge2
        · exact absurd (by simp [hlt2]) g1
        · exact ⟨hge, hge2⟩
    have hnoise : (_clean_name_token first) ∉ TITLE_NOISE ∧
        (_clean_name_token last) ∉ TITLE_NOISE := by
      constructor
      · intro hm; exact g2 (by simp [hm])
      · intro hm; exact g2 (by simp [hm])
    have hseen : (_clean_name_token first, _clean_name_token last) ∉ st.1 := by
      intro hm; exact g3 (by simp [hm])
    refine ⟨?_, ?_, ?_⟩
    · intro k
      rw [List.mem_cons, List.map_append, List.mem_append, List.map_singleton,
        List.mem_singleton]
      constructor
      · rintro (hk | hk)
        · exact Or.inr hk
        · exact Or.inl ((hiff k).mp hk)
      · rintro (hk | hk)
        · exact Or.inr ((hiff k).mpr hk)
        · exact Or.inl hk
    · rw [List.map_append, List.nodup_append]
      refine ⟨hnd, by simp, ?_⟩
      intro k hk hk2
      rw [List.map_singleton, List.mem_singleton] at hk2
      rw [hk2] at hk
      exact hseen ((hiff _).mpr hk)
    · intro c hc
      rw [List.mem_append, List.mem_singleton] at hc
      cases hc with
      | inl hc => exact hgood c hc
      | inr hc =>
        subst hc
        exact ⟨hlen.1, clean_name_token_lower first, hnoise.1,
               hlen.2, clean_name_token_lower last, hnoise.2⟩

/-- `_add_name` only ever appends to the output. -/
theorem add_name_mem (first last raw src : String) (st : ExtractSt) {c : Candidate}
    (h : c ∈ st.2) : c ∈ (_add_name first last raw src st).2 := by
  simp only [_add_name]
  split_ifs <;> first | exact h | exact List.mem_append_left _ h

/-- `processItem` preserves the extraction invariant. -/
theorem processItem_inv (st : ExtractSt) (t u : String) (h : ExtractInv st) :
    ExtractInv (processItem st t u) := by
  simp only [processItem]
  repeat' split
  all_goals
    first
    | exact h
    | exact add_name_inv _ _ _ _ _ h
    | exact add_name_inv _ _ _ _ _ (add_name_inv _ _ _ _ _ h)

/-- `processItem` only ever appends to the output. -/
theorem processItem_mem (st : ExtractSt) (t u : String) {c : Candidate}
    (h : c ∈ st.2) : c ∈ (processItem st t u).2 := by
  simp only [processItem]
  repeat' split
  all_goals
    first
    | exact h
    | exact add_name_mem _ _ _ _ _ h
    | exact add_name_mem _ _ _ _ _ (add_name_mem _ _ _ _ _ h)

/-- The extraction fold preserves the invariant. -/
theorem extract_fold_inv :
    ∀ (items : List (String × String)) (st : ExtractSt), ExtractInv st →
      ExtractInv (items.foldl (fun st p => processItem st p.1 p.2) st) := by
  intro items
  induction items with
  | nil => intro st h; exact h
  | cons x xs ih =>
    intro st h
    exact ih _ (processItem_inv st x.1 x.2 h)

/-- The extraction fold only ever appends to the output. -/
theorem extract_fold_mem :
    ∀ (items : List (String × String)) (st : ExtractSt) {c : Candidate}, c ∈ st.2 →
      c ∈ (items.foldl (fun st p => processItem st p.1 p.2) st).2 := by
  intro items
  induction items with
  | nil => intro st c h; exact h
  | cons x xs ih =>
    intro st c h
    exact ih _ (processItem_mem st x.1 x.2 h)

/-- C9: every candidate emitted by an extraction run is normalized — both
tokens are lower-case alphabetic of length at least 2 and outside the fixed
noise vocabulary — and the (first, last) keys of the emitted candidates are
pairwise distinct across the whole run. -/
theorem extract_names_normalized :
    ∀ items : List (String × String),
      (∀ c ∈ extract_names items, GoodCandidate c)
      ∧ ((extract_names items).map candKey).Nodup := by
  intro items
  have h : ExtractInv (items.foldl (fun st p => processItem st p.1 p.2) ([], [])) :=
    extract_fold_inv items ([], []) ⟨by simp, by simp, by simp⟩
  exact ⟨h.2.2, h.2.1⟩


/-- When the guards pass, `_add_name` guarantees the key is present in the
output (either it was already seen — and the seen set is included in the
output keys — or it is appended now). -/
theorem add_name_key_mem (first last raw src : String) (st : ExtractSt)
    (hinv : ∀ k ∈ st.1, k ∈ st.2.map candKey)
    (h1 : 2 ≤ (_clean_name_token first).length)
    (h2 : 2 ≤ (_clean_name_token last).length)
    (h3 : (_clean_name_token first) ∉ TITLE_NOISE)
    (h4 : (_clean_name_token last) ∉ TITLE_NOISE) :
    (_clean_name_token first, _clean_name_token last)
      ∈ (_add_name first last raw src st).2.map candKey := by
  simp only [_add_name]
  rw [if_neg (by simp; omega)]
  rw [if_neg (by simp [h3, h4])]
  by_cases hseen : (_clean_name_token first, _clean_name_token last) ∈ st.1
  · rw [if_pos (by simpa using hseen)]
    exact hinv _ hseen
  · rw [if_neg (by simpa using hseen)]
    rw [List.map_append, List.mem_append]
    exact Or.inr (by simp [candKey])
theorem add_name_seen_sub (first last raw src : String) (st : ExtractSt)
    (hinv : ∀ k ∈ st.1, k ∈ st.2.map candKey) :
    ∀ k ∈ (_add_name first last raw src st).1,
      k ∈ (_add_name first last raw src st).2.map candKey := by
  simp only [_add_name]
  split_ifs
  · exact hinv
  · exact hinv
  · exact hinv
  · intro k hk
    rw [List.mem_cons] at hk
    rw [List.map_append, List.mem_append]
    cases hk with
    | inl hk => exact Or.inr (by simp [candKey, hk])
    | inr hk => exact Or.inl (hinv k hk)
theorem processItem_linkedin_key (st : ExtractSt) (title url f l : String)
    (hinv : ∀ k ∈ st.1, k ∈ st.2.map candKey)
    (hll : listContains (lowerL url.data) (("linkedin.com/in/").data) = true)
    (hli : _extract_from_linkedin_url url = some (f, l))
    (h1 : 2 ≤ (_clean_name_token f).length)
    (h2 : 2 ≤ (_clean_name_token l).length)
    (h3 : (_clean_name_token f) ∉ TITLE_NOISE)
    (h4 : (_clean_name_token l) ∉ TITLE_NOISE) :
    (_clean_name_token f, _clean_name_token l)
      ∈ (processItem st title url).2.map candKey := by
  rcases hti : _extract_from_linkedin_title title with _ | ⟨a, b⟩
  · rw [show processItem st title url
        = _add_name f l title (_source_from_url url)
            (_add_name f l title (_source_from_url url) st) from by
      simp [processItem, hll, hli, hti]]
    exact add_name_key_mem f l title _ _
      (add_name_seen_sub f l title _ st hinv) h1 h2 h3 h4
  · rw [show processItem st title url
        = _add_name f l title (_source_from_url url)
            (_add_name a b title (_source_from_url url) st) from by
      simp [processItem, hll, hli, hti]]
    exact add_name_key_mem f l title _ _
      (add_name_seen_sub a b title _ st hinv) h1 h2 h3 h4

/-- C7: identity extraction is deterministic (it is a pure function of the
hit list, so equal inputs give equal candidate sets), and for a
professional-network profile hit the URL-slug extraction is attempted as a
second, independent candidate even when the title-based parse succeeded:
whenever the slug parses to a pair surviving normalization, its key appears
in the run's output whatever the title yielded; the title
`Jane Doe - Security Lead at Acme | LinkedIn` at `.../in/jane-doe-4f2a`
yields the candidate (`jane`, `doe`). -/
theorem extract_names_linkedin_second :
    ∀ (pre post : List (String × String)) (title url f l : String),
      listContains (lowerL url.data) (("linkedin.com/in/").data) = true →
      _extract_from_linkedin_url url = some (f, l) →
      2 ≤ (_clean_name_token f).length →
      2 ≤ (_clean_name_token l).length →
      (_clean_name_token f) ∉ TITLE_NOISE →
      (_clean_name_token l) ∉ TITLE_NOISE →
      ((_clean_name_token f, _clean_name_token l)
          ∈ (extract_names (pre ++ (title, url) :: post)).map candKey)
      ∧ extract_names (pre ++ (title, url) :: post)
          = extract_names (pre ++ (title, url) :: post)
      ∧ (("jane"), ("doe")) ∈ (extract_names
            [(("Jane Doe - Security Lead at Acme | LinkedIn"),
              ("https://www.linkedin.com/in/jane-doe-4f2a"))]).map candKey := by
  intro pre post title url f l hll hli h1 h2 h3 h4
  refine ⟨?_, rfl, by decide⟩
  unfold extract_names
  rw [List.foldl_append, List.foldl_cons]
  have hinvPre : ExtractInv (pre.foldl (fun st p => processItem st p.1 p.2) ([], [])) :=
    extract_fold_inv pre ([], []) ⟨by simp, by simp, by simp⟩
  have hkey := processItem_linkedin_key _ title url f l
      (fun k hk => (hinvPre.1 k).mp hk) hll hli h1 h2 h3 h4
  rcases List.mem_map.mp hkey with ⟨c, hc, hck⟩
  exact List.mem_map.mpr ⟨c, extract_fold_mem post _ hc, hck⟩

/-- C7 witness: a linkedin hit whose title parse yields a different pair
(`profile`, `page`) still contributes the slug candidate (`john`, `smith`). -/
theorem extract_names_linkedin_second_witness :
    ((_clean_name_token ("john"), _clean_name_token ("smith"))
        ∈ (extract_names [(("Profile page"),
            ("https://www.linkedin.com/in/john-smith-4f2a"))]).map candKey) :=
  (extract_names_linkedin_second [] [] ("Profile page")
      ("https://www.linkedin.com/in/john-smith-4f2a") ("john") ("smith")
      (by decide) (by decide) (by decide) (by decide) (by decide) (by decide)).1

/-- C9 witness: the invariant instantiated on the Jane Doe run. -/
theorem extract_names_normalized_witness :
    GoodCandidate ⟨("jane"), ("doe"),
        ("Jane Doe - Security Lead at Acme | LinkedIn"), ("linkedin.com")⟩
    ∧ ((extract_names [(("Jane Doe - Security Lead at Acme | LinkedIn"),
          ("https://www.linkedin.com/in/jane-doe-4f2a"))]).map candKey).Nodup :=
  ⟨(extract_names_normalized [(("Jane Doe - Security Lead at Acme | LinkedIn"),
        ("https://www.linkedin.com/in/jane-doe-4f2a"))]).1 _ (by decide),
   (extract_names_normalized [(("Jane Doe - Security Lead at Acme | LinkedIn"),
        ("https://www.linkedin.com/in/jane-doe-4f2a"))]).2⟩

theorem list_map_id_of {f : Char → Char} {l : List Char} (h : ∀ c ∈ l, f c = c) :
    l.map f = l := by
  induction l with
  | nil => rfl
  | cons a as ih =>
    rw [List.map_cons, h a (List.mem_cons_self a as), ih (fun c hc => h c (List.mem_cons_of_mem a hc))]

theorem dropWhile_head_false {p : Char → Bool} {l : List Char} :
    ∀ {x : Char} {xs : List Char}, l.dropWhile p = x :: xs → p x = false := by
  induction l with
  | nil => intro x xs h; exact absurd h (by simp)
  | cons a as ih =>
    intro x xs h
    rw [List.dropWhile_cons] at h
    by_cases hpa : p a = true
    · rw [if_pos hpa] at h
      exact ih h
    · rw [if_neg hpa] at h
      cases h
      exact eq_false_of_ne_true hpa

theorem dropWhile_eq_self_of_head {p : Char → Bool} {l : List Char}
    (h : ∀ y, l.head? = some y → p y = false) : l.dropWhile p = l := by
  cases l with
  | nil => rfl
  | cons a as =>
    rw [List.dropWhile_cons, if_neg]
    rw [h a rfl]
    simp

theorem strip_eq_self {l : List Char}
    (hh : ∀ y, l.head? = some y → isDotSpace y = false)
    (hl : ∀ y, l.getLast? = some y → isDotSpace y = false) :
    stripDotSpace l = l := by
  rw [stripDotSpace, dropWhile_eq_self_of_head hh]
  rw [dropWhile_eq_self_of_head (fun y hy => hl y (by rwa [← List.head?_reverse]))]
  exact List.reverse_reverse l

theorem strip_mem {l : List Char} {c : Char} (h : c ∈ stripDotSpace l) : c ∈ l := by
  rw [stripDotSpace] at h
  rw [List.mem_reverse] at h
  have h2 := (List.dropWhile_sublist _).mem h
  rw [List.mem_reverse] at h2
  exact (List.dropWhile_sublist _).mem h2

theorem head?_dropWhile_false {p : Char → Bool} {l : List Char} {y : Char}
    (h : (l.dropWhile p).head? = some y) : p y = false := by
  cases hc : l.dropWhile p with
  | nil => rw [hc] at h; exact absurd h (by simp)
  | cons b bs =>
    rw [hc, List.head?_cons] at h
    cases h
    exact dropWhile_head_false hc

theorem strip_last {l : List Char} {y : Char}
    (h : (stripDotSpace l).getLast? = some y) : isDotSpace y = false := by
  rw [stripDotSpace, List.getLast?_reverse] at h
  exact head?_dropWhile_false h

theorem getLast?_suffix {l1 l2 : List Char} (h : l1 <:+ l2) {y : Char}
    (hy : l1.getLast? = some y) : l2.getLast? = some y := by
  rcases h with ⟨t, rfl⟩
  cases l1 with
  | nil => exact absurd hy (by simp)
  | cons a as => rw [List.getLast?_append_cons]; exact hy

theorem strip_head {l : List Char} {y : Char}
    (h : (stripDotSpace l).head? = some y) : isDotSpace y = false := by
  rw [stripDotSpace] at h
  rw [List.head?_reverse] at h
  have hsuf : ((l.dropWhile isDotSpace).reverse.dropWhile isDotSpace)
      <:+ (l.dropWhile isDotSpace).reverse := List.dropWhile_suffix _
  have h2 := getLast?_suffix hsuf h
  rw [List.getLast?_reverse] at h2
  exact head?_dropWhile_false h2


theorem map_repl_not_illegal {cs : List Char} {c : Char}
    (h : c ∈ cs.map (fun c => if isIllegalFsChar c then '_' else c)) :
    isIllegalFsChar c = false := by
  rcases List.mem_map.mp h with ⟨a, _, rfl⟩
  by_cases ha : isIllegalFsChar a = true
  · rw [if_pos ha]
    decide
  · rw [if_neg ha]
    exact eq_false_of_ne_true ha

theorem stem_head?_cons (x : Char) (cs : List Char) :
    ((splitextStemExt (x :: cs)).1).head? = some x := by
  rw [splitextStemExt]
  cases hf : (x :: cs).reverse.findIdx? (fun c => c == '.') with
  | none => rfl
  | some j =>
    simp only []
    by_cases hd : ((x :: cs).takeWhile (fun c => c == '.')).length < (x :: cs).length - 1 - j
    · rw [if_pos hd]
      obtain ⟨d, hde⟩ : ∃ d, (x :: cs).length - 1 - j = d + 1 :=
        ⟨(x :: cs).length - 1 - j - 1, by omega⟩
      rw [hde, List.take_succ_cons, List.head?_cons]
    · rw [if_neg hd]
      rfl

theorem reserved_head_ne_underscore :
    ∀ m ∈ reservedStems, m.head? ≠ some '_' := by decide

theorem stem_cons_underscore_not_reserved (cs : List Char) :
    ((splitextStemExt ('_' :: cs)).1).map Char.toUpper ∉ reservedStems := by
  intro hmem
  have hh := stem_head?_cons '_' cs
  have hmap : (((splitextStemExt ('_' :: cs)).1).map Char.toUpper).head?
      = some (Char.toUpper '_') := by
    rw [List.head?_map, hh]
    rfl
  exact reserved_head_ne_underscore _ hmem (by rw [hmap]; rfl)

/-- Structure of the sanitizer's output: non-empty, free of illegal and
control characters, not starting or ending with a dot or space, and with a
non-reserved stem. -/
theorem sanitize_struct (s : String) :
    (sanitize_filename s).data ≠ []
    ∧ (∀ c ∈ (sanitize_filename s).data, isIllegalFsChar c = false ∧ isCtrl c = false)
    ∧ (∀ y, (sanitize_filename s).data.head? = some y → isDotSpace y = false)
    ∧ (∀ y, (sanitize_filename s).data.getLast? = some y → isDotSpace y = false)
    ∧ ((splitextStemExt (sanitize_filename s).data).1).map Char.toUpper ∉ reservedStems := by
  rw [sanitize_filename]
  have hgood : ∀ c ∈ stripDotSpace
      ((s.data.map (fun c => if isIllegalFsChar c then '_' else c)).filter
        (fun c => !(isCtrl c))),
      isIllegalFsChar c = false ∧ isCtrl c = false := by
    intro c hc
    have hc2 := strip_mem hc
    rcases List.mem_filter.mp hc2 with ⟨hc3, hcc⟩
    refine ⟨map_repl_not_illegal hc3, ?_⟩
    cases hcl : isCtrl c
    · rfl
    · rw [hcl] at hcc
      exact absurd hcc (by decide)
  by_cases hempty :
      (stripDotSpace
        ((s.data.map (fun c => if isIllegalFsChar c then '_' else c)).filter
          (fun c => !(isCtrl c)))).isEmpty = true
  · rw [if_pos hempty]
    by_cases hres : ((splitextStemExt (("file").data)).1).map Char.toUpper ∈ reservedStems
    · exact absurd hres (by decide)
    · rw [if_neg hres]
      refine ⟨by decide, by decide, by decide, by decide, by
        simpa using hres⟩
  · rw [if_neg hempty]
    obtain ⟨x, xs, hx⟩ : ∃ x xs, stripDotSpace
        ((s.data.map (fun c => if isIllegalFsChar c then '_' else c)).filter
          (fun c => !(isCtrl c))) = x :: xs := by
      cases hc : stripDotSpace
          ((s.data.map (fun c => if isIllegalFsChar c then '_' else c)).filter
            (fun c => !(isCtrl c))) with
      | nil => rw [hc] at hempty; exact absurd rfl hempty
      | cons x xs => exact ⟨x, xs, rfl⟩
    by_cases hres : ((splitextStemExt (x :: xs)).1).map Char.toUpper ∈ reservedStems
    · rw [hx, if_pos hres]
      refine ⟨by simp, ?_, ?_, ?_, ?_⟩
      · intro c hc
        rw [List.mem_cons] at hc
        cases hc with
        | inl hc => rw [hc]; exact ⟨by decide, by decide⟩
        | inr hc =>
          rw [← hx] at hc
          exact hgood c hc
      · intro y hy
        rw [List.head?_cons] at hy
        cases hy
        decide
      · intro y hy
        rw [List.getLast?_cons_cons] at hy
        exact strip_last (by rw [hx]; exact hy)
      · exact stem_cons_underscore_not_reserved (x :: xs)
    · rw [hx, if_neg hres]
      refine ⟨by simp, ?_, ?_, ?_, by simpa using hres⟩
      · intro c hc
        rw [← hx] at hc
        exact hgood c hc
      · intro y hy
        exact strip_head (by rw [hx]; exact hy)
      · intro y hy
        exact strip_last (by rw [hx]; exact hy)


/-- The sanitizer is idempotent. -/
theorem sanitize_filename_idem (s : String) :
    sanitize_filename (sanitize_filename s) = sanitize_filename s := by
  obtain ⟨hne, hchars, hhead, hlast, hstem⟩ := sanitize_struct s
  set r := sanitize_filename s with hr
  have h1 : r.data.map (fun c => if isIllegalFsChar c then '_' else c) = r.data :=
    list_map_id_of (fun c hc => if_neg (ne_true_of_eq_false (hchars c hc).1))
  have h2 : r.data.filter (fun c => !(isCtrl c)) = r.data :=
    List.filter_eq_self.mpr (fun c hc => by rw [(hchars c hc).2]; rfl)
  have h3 : stripDotSpace r.data = r.data := strip_eq_self hhead hlast
  have h4 : r.data.isEmpty = false := by
    cases hc : r.data with
    | nil => exact absurd hc hne
    | cons a as => rfl
  rw [sanitize_filename, h1, h2, h3]
  rw [if_neg (show ¬(r.data.isEmpty = true) from ne_true_of_eq_false h4)]
  rw [if_neg hstem]

/-- C10: the filename sanitizer is idempotent, and its result is always a
non-empty name containing none of the characters `< > : " | ? *`, no
slashes, no control characters (code points below 32), and no leading or
trailing dots or spaces. -/
theorem sanitize_filename_spec :
    ∀ s : String,
      sanitize_filename (sanitize_filename s) = sanitize_filename s
      ∧ sanitize_filename s ≠ ("")
      ∧ (∀ c ∈ (sanitize_filename s).data, isIllegalFsChar c = false ∧ isCtrl c = false)
      ∧ (∀ y, (sanitize_filename s).data.head? = some y → isDotSpace y = false)
      ∧ (∀ y, (sanitize_filename s).data.getLast? = some y → isDotSpace y = false) := by
  intro s
  obtain ⟨hne, hchars, hhead, hlast, hstem⟩ := sanitize_struct s
  refine ⟨sanitize_filename_idem s, ?_, hchars, hhead, hlast⟩
  intro h
  exact hne (by rw [h])

/-- C10 witness: the specification instantiated on a name containing
illegal characters and surrounding dots/spaces. -/
theorem sanitize_filename_spec_witness :
    sanitize_filename (sanitize_filename ("  report<1>.pdf.  "))
      = sanitize_filename ("  report<1>.pdf.  ")
    ∧ (isIllegalFsChar 'r' = false ∧ isCtrl 'r' = false)
    ∧ isDotSpace 'r' = false ∧ isDotSpace 'f' = false :=
  ⟨(sanitize_filename_spec ("  report<1>.pdf.  ")).1,
   (sanitize_filename_spec ("  report<1>.pdf.  ")).2.2.1 'r' (by decide),
   (sanitize_filename_spec ("  report<1>.pdf.  ")).2.2.2.1 'r' (by decide),
   (sanitize_filename_spec ("  report<1>.pdf.  ")).2.2.2.2 'f' (by decide)⟩


theorem mem_takeWhile_sat {q : Char → Bool} :
    ∀ {l : List Char} {c : Char}, c ∈ l.takeWhile q → q c = true := by
  intro l
  induction l with
  | nil => intro c hc; exact absurd hc (by simp)
  | cons a as ih =>
    intro c hc
    rw [List.takeWhile_cons] at hc
    by_cases hqa : q a = true
    · rw [if_pos hqa] at hc
      rw [List.mem_cons] at hc
      cases hc with
      | inl hc => rw [hc]; exact hqa
      | inr hc => exact ih hc
    · rw [if_neg hqa] at hc
      exact absurd hc (by simp)

theorem takeWhile_all_append (q : Char → Bool) (x : Char) (l2 : List Char) (hx : q x = false) :
    ∀ (l1 : List Char), (∀ c ∈ l1, q c = true) →
      (l1 ++ x :: l2).takeWhile q = l1 ∧ (l1 ++ x :: l2).dropWhile q = x :: l2 := by
  intro l1
  induction l1 with
  | nil =>
    intro _
    constructor
    · rw [List.nil_append, List.takeWhile_cons, if_neg (ne_true_of_eq_false hx)]
    · rw [List.nil_append, List.dropWhile_cons, if_neg (ne_true_of_eq_false hx)]
  | cons a as ih =>
    intro h
    have ha : q a = true := h a (List.mem_cons_self a as)
    have has : ∀ c ∈ as, q c = true := fun c hc => h c (List.mem_cons_of_mem a hc)
    constructor
    · rw [List.cons_append, List.takeWhile_cons, if_pos ha, (ih has).1]
    · rw [List.cons_append, List.dropWhile_cons, if_pos ha, (ih has).2]

theorem hasExtEnd_iff (p : List Char) : hasExtEnd p = true ↔ EndsInExt p := by
  constructor
  · intro h
    rw [hasExtEnd] at h
    rw [Bool.and_eq_true, Bool.and_eq_true] at h
    rcases h with ⟨⟨h2, h5⟩, hd⟩
    rw [decide_eq_true_eq] at h2 h5
    cases hdrop : p.reverse.dropWhile isExtChar with
    | nil => rw [hdrop] at hd; exact absurd hd (by decide)
    | cons x rest =>
      rw [hdrop, List.head?_cons] at hd
      have hx : x = '.' := Option.some.inj (eq_of_beq hd)
      subst hx
      set run := p.reverse.takeWhile isExtChar with hrun
      have hp : p.reverse = run ++ '.' :: rest := by
        rw [hrun, ← hdrop, List.takeWhile_append_dropWhile]
      refine ⟨rest.reverse, run.reverse, ?_, ?_, ?_, ?_⟩
      · rw [← List.reverse_reverse p, hp]
        rw [List.reverse_append, List.reverse_cons, List.append_assoc, List.singleton_append]
      · rwa [List.length_reverse]
      · rwa [List.length_reverse]
      · intro c hc
        rw [List.mem_reverse] at hc
        rw [hrun] at hc
        exact mem_takeWhile_sat hc
  · rintro ⟨pre, ext, rfl, h2, h5, hall⟩
    have hrev : (pre ++ '.' :: ext).reverse = ext.reverse ++ '.' :: pre.reverse := by
      rw [List.reverse_append, List.reverse_cons, List.append_assoc, List.singleton_append]
    have hta := takeWhile_all_append isExtChar '.' pre.reverse
      (by decide) ext.reverse (fun c hc => hall c (List.mem_reverse.mp hc))
    rw [hasExtEnd, hrev, hta.1, hta.2]
    rw [Bool.and_eq_true, Bool.and_eq_true]
    refine ⟨⟨?_, ?_⟩, by simp⟩
    · rw [decide_eq_true_eq, List.length_reverse]; exact h2
    · rw [decide_eq_true_eq, List.length_reverse]; exact h5

theorem extDelimAt_iff (rest : List Char) :
    extDelimAt rest = true ↔
      ∃ ext d post, rest = ext ++ d :: post ∧ 2 ≤ ext.length ∧ ext.length ≤ 5 ∧
        (∀ c ∈ ext, isExtChar c = true) ∧ (d = '?' ∨ d = '#') := by
  constructor
  · intro h
    rw [extDelimAt] at h
    rw [Bool.and_eq_true, Bool.and_eq_true] at h
    rcases h with ⟨⟨h2, h5⟩, hd⟩
    rw [decide_eq_true_eq] at h2 h5
    cases hdrop : rest.dropWhile isExtChar with
    | nil => rw [hdrop] at hd; exact absurd hd (by decide)
    | cons x post =>
      rw [hdrop, List.head?_cons] at hd
      have hx : x = '?' ∨ x = '#' := by
        rw [Bool.or_eq_true] at hd
        cases hd with
        | inl hd => exact Or.inl (Option.some.inj (eq_of_beq hd))
        | inr hd => exact Or.inr (Option.some.inj (eq_of_beq hd))
      refine ⟨rest.takeWhile isExtChar, x, post, ?_, h2, h5, ?_, hx⟩
      · rw [← hdrop, List.takeWhile_append_dropWhile]
      · intro c hc
        exact mem_takeWhile_sat hc
  · rintro ⟨ext, d, post, rfl, h2, h5, hall, hd⟩
    have hdf : isExtChar d = false := by
      cases hd with
      | inl hd => rw [hd]; decide
      | inr hd => rw [hd]; decide
    have hta := takeWhile_all_append isExtChar d post hdf ext hall
    rw [extDelimAt, hta.1, hta.2]
    rw [Bool.and_eq_true, Bool.and_eq_true]
    refine ⟨⟨by rw [decide_eq_true_eq]; exact h2, by rw [decide_eq_true_eq]; exact h5⟩, ?_⟩
    rw [List.head?_cons, Bool.or_eq_true]
    cases hd with
    | inl hd => exact Or.inl (by rw [hd]; decide)
    | inr hd => exact Or.inr (by rw [hd]; decide)

theorem extBeforeDelim_cons (c : Char) (rest : List Char) :
    ExtBeforeDelim (c :: rest) ↔
      (c = '.' ∧ ∃ ext d post, rest = ext ++ d :: post ∧ 2 ≤ ext.length ∧ ext.length ≤ 5 ∧
        (∀ x ∈ ext, isExtChar x = true) ∧ (d = '?' ∨ d = '#'))
      ∨ ExtBeforeDelim rest := by
  constructor
  · rintro ⟨pre, ext, d, post, heq, h2, h5, hall, hd⟩
    cases pre with
    | nil =>
      rw [List.nil_append] at heq
      cases heq
      exact Or.inl ⟨rfl, ext, d, post, rfl, h2, h5, hall, hd⟩
    | cons p ps =>
      rw [List.cons_append] at heq
      injection heq with hc hrest
      exact Or.inr ⟨ps, ext, d, post, hrest, h2, h5, hall, hd⟩
  · rintro (⟨hc, ext, d, post, hrest, h2, h5, hall, hd⟩ | ⟨pre, ext, d, post, hrest, h2, h5, hall, hd⟩)
    · exact ⟨[], ext, d, post, by rw [hc, hrest]; rfl, h2, h5, hall, hd⟩
    · exact ⟨c :: pre, ext, d, post, by rw [hrest]; rfl, h2, h5, hall, hd⟩

theorem hasExtDelim_iff : ∀ (u : List Char), hasExtDelim u = true ↔ ExtBeforeDelim u := by
  intro u
  induction u with
  | nil =>
    constructor
    · intro h; exact absurd h (by decide)
    · rintro ⟨pre, ext, d, post, heq, _⟩
      exact absurd heq (by simp)
  | cons c rest ih =>
    rw [hasExtDelim, extBeforeDelim_cons, Bool.or_eq_true, Bool.and_eq_true]
    constructor
    · rintro (⟨hc, hat⟩ | h)
      · exact Or.inl ⟨beq_iff_eq.mp hc, (extDelimAt_iff rest).mp hat⟩
      · exact Or.inr (ih.mp h)
    · rintro (⟨hc, hat⟩ | h)
      · exact Or.inl ⟨beq_iff_eq.mpr hc, (extDelimAt_iff rest).mpr hat⟩
      · exact Or.inr (ih.mpr h)


theorem is_file_link_iff (url : String) : is_file_link url = true ↔ FileLike url := by
  rw [is_file_link, FileLike]
  by_cases hcond : ((pyUrlparsePath (lowerL url.data)).isEmpty
      || (pyUrlparsePath (lowerL url.data)).getLast? == some '/') = true
  · rw [if_pos hcond]
    rw [Bool.or_eq_true] at hcond
    apply iff_of_false (by simp)
    rintro ⟨hne, hsl, _⟩
    cases hcond with
    | inl h =>
      exact hne (by
        cases hc : pyUrlparsePath (lowerL url.data) with
        | nil => rfl
        | cons a as => rw [hc] at h; exact absurd h (by simp))
    | inr h => exact hsl (eq_of_beq h)
  · rw [if_neg hcond]
    have hcond' := hcond
    rw [Bool.or_eq_true, not_or] at hcond'
    rcases hcond' with ⟨hni, hnb⟩
    have hne : pyUrlparsePath (lowerL url.data) ≠ [] := by
      intro hc
      exact hni (by rw [hc]; rfl)
    have hnl : (pyUrlparsePath (lowerL url.data)).getLast? ≠ some '/' := by
      intro hc
      exact hnb (by rw [hc]; rfl)
    constructor
    · intro h
      rw [Bool.or_eq_true] at h
      refine ⟨hne, hnl, ?_⟩
      cases h with
      | inl h => exact Or.inl ((hasExtEnd_iff _).mp h)
      | inr h => exact Or.inr ((hasExtDelim_iff _).mp h)
    · rintro ⟨_, _, h⟩
      rw [Bool.or_eq_true]
      cases h with
      | inl h => exact Or.inl ((hasExtEnd_iff _).mpr h)
      | inr h => exact Or.inr ((hasExtDelim_iff _).mpr h)

/-- C4 counterexample: `https://acme.com/view?file=report.pdf` is NOT
classified file-like by the code — its path is `/view` (no extension) and
the `.pdf` in the query value is followed by the end of the URL, not by a
`?` or `#` delimiter as the second regex requires. -/
theorem view_query_pdf_not_file_like :
    is_file_link ("https://acme.com/view?file=report.pdf") = false := by decide

/-- C4 (amended): `is_file_link(url)` returns true iff the URL's path is
non-empty, does not end in `/`, and either the path ends in a 2-5 character
alphanumeric extension or somewhere in the lowered URL a dot is followed by
a 2-5 character alphanumeric run immediately followed by a `?` or `#`;
`.../reports/q1.pdf` is file-like, `.../reports/` is not, and
`.../view?file=report.pdf` is NOT file-like (its extension sits after the
query delimiter; `.../report.pdf?download=1` — extension before the
delimiter — is). -/
theorem is_file_link_spec :
    (∀ url : String, is_file_link url = true ↔ FileLike url)
    ∧ is_file_link ("https://acme.com/reports/q1.pdf") = true
    ∧ is_file_link ("https://acme.com/reports/") = false
    ∧ is_file_link ("https://acme.com/view?file=report.pdf") = false
    ∧ is_file_link ("https://acme.com/report.pdf?download=1") = true :=
  ⟨is_file_link_iff, by decide, by decide, by decide, by decide⟩

/-- C4 witness: the characterisation instantiated on the pdf example. -/
theorem is_file_link_spec_witness :
    FileLike ("https://acme.com/reports/q1.pdf") :=
  (is_file_link_spec.1 ("https://acme.com/reports/q1.pdf")).mp (by decide)


end Scry
